import Mathlib

/-!
# Gamma distribution pricing (`fms_gamma.h`)

A shallow embedding of `fms::gamma::pdf`, `cdf`, `convert` and `put`.

The C++ functions are written against five library functions that are declared
but not defined in the header: `exp`, `sqrt`, `pow` (from `<cmath>`) and `gamma`,
`igam` (from the Cephes library).  The embedding takes them as a record of
functions over an ordered field, so each definition below follows its source
function line by line and stays executable.  The properties that need the meaning
of the library functions are proved for the real numbers, where `double` is read
as exact real arithmetic.
-/

namespace fms.gamma

/-- The library functions the header calls: `exp`, `sqrt`, `pow` of `<cmath>` and
the Cephes functions `gamma` and `igam` declared `extern "C"`. -/
structure Library (α : Type) where
  exp : α → α
  sqrt : α → α
  pow : α → α → α
  gamma : α → α
  igam : α → α → α

variable {α : Type} [LinearOrderedField α]

/-- Modelled from the spec: the `ensure` macro of `xll/ensure.h`, which is not part
of the sources.  A condition that holds lets the computation go on; a condition
that fails aborts it with a precondition violation naming the condition. -/
def ensure (c : Prop) [Decidable c] (expr : String) : Except String Unit :=
  if c then Except.ok () else Except.error expr

/-- Gamma density `pow(x, a - 1) * exp(-b * x) * pow(b, a) / gamma(a)`. -/
def pdf (L : Library α) (x a b : α) : α :=
  L.pow x (a - 1) * L.exp (-b * x) * L.pow b a / L.gamma a

/-- Gamma distribution function `igam(a, b * x)`. -/
def cdf (L : Library α) (x a b : α) : α :=
  L.igam a (b * x)

/-- Gamma parameters matched to the Black distribution: `pair(a, a)` with
`a = 1 / (exp(s * s) - 1)`. -/
def convert (L : Library α) (s : α) : α × α :=
  let a := 1 / (L.exp (s * s) - 1)
  (a, a)

/-- Put value: the four `ensure` checks in order, then
`k * cdf(k / f, a, b) - f * cdf(k / f, a + 1, b)`. -/
def put (L : Library α) (f sigma k t : α) : Except String α := do
  ensure (f > 0) "f > 0"
  ensure (sigma > 0) "sigma > 0"
  ensure (k > 0) "k > 0"
  ensure (t > 0) "t > 0"
  let s := sigma * L.sqrt t
  let parameters := convert L s
  let a := parameters.1
  let b := parameters.2
  let first := k * cdf L (k / f) a b
  let expectation := f * cdf L (k / f) (a + 1) b
  return first - expectation

/-- Modelled from the spec: the Cephes function `igam`, whose code is not part of
the sources, as the regularized lower incomplete Gamma function
`P(a, x) = (1 / Γ(a)) ∫₀ˣ t^(a-1) e^(-t) dt`. -/
noncomputable def igamReal (a x : ℝ) : ℝ :=
  (1 / Real.Gamma a) * ∫ t in (0 : ℝ)..x, t ^ (a - 1) * Real.exp (-t)

/-- The library functions over the real numbers: the `<cmath>` functions are the
real exponential, square root and power, `gamma` is the Gamma function and `igam`
the regularized lower incomplete Gamma function. -/
noncomputable def real : Library ℝ where
  exp := Real.exp
  sqrt := Real.sqrt
  pow := fun x y => x ^ y
  gamma := Real.Gamma
  igam := igamReal

/-- The put payoff `max(k - f * x, 0)` on `F = f * x`, weighted by the Gamma density
at `x`: the integrand of the expectation `E[(k - F)^+]`. -/
noncomputable def payoffDensity (f k a b : ℝ) (x : ℝ) : ℝ :=
  max (k - f * x) 0 * pdf real x a b

/-! ## The result of `put` on valid and invalid inputs -/

theorem put_eq_ok (L : Library α) {f sigma k t : α}
    (hf : 0 < f) (hs : 0 < sigma) (hk : 0 < k) (ht : 0 < t) :
    put L f sigma k t = Except.ok
      (k * cdf L (k / f) (convert L (sigma * L.sqrt t)).1 (convert L (sigma * L.sqrt t)).2
        - f * cdf L (k / f) ((convert L (sigma * L.sqrt t)).1 + 1)
            (convert L (sigma * L.sqrt t)).2) := by
  simp [put, ensure, hf, hs, hk, ht, bind, Except.bind, pure, Except.pure]

theorem put_error_of_not_pos (L : Library α) {f sigma k t : α}
    (h : f ≤ 0 ∨ sigma ≤ 0 ∨ k ≤ 0 ∨ t ≤ 0) :
    ∃ e, put L f sigma k t = Except.error e := by
  by_cases hf : 0 < f
  · by_cases hs : 0 < sigma
    · by_cases hk : 0 < k
      · have ht : ¬ 0 < t := by
          rcases h with h | h | h | h
          · exact absurd hf (not_lt.mpr h)
          · exact absurd hs (not_lt.mpr h)
          · exact absurd hk (not_lt.mpr h)
          · exact not_lt.mpr h
        exact ⟨"t > 0", by simp [put, ensure, hf, hs, hk, ht, bind, Except.bind]⟩
      · exact ⟨"k > 0", by simp [put, ensure, hf, hs, hk, bind, Except.bind]⟩
    · exact ⟨"sigma > 0", by simp [put, ensure, hf, hs, bind, Except.bind]⟩
  · exact ⟨"f > 0", by simp [put, ensure, hf, bind, Except.bind]⟩

/-! ## The Gamma density and distribution function over the reals -/

open MeasureTheory Set

theorem pdf_real (x a b : ℝ) :
    pdf real x a b = x ^ (a - 1) * Real.exp (-b * x) * b ^ a / Real.Gamma a := rfl

theorem cdf_real (x a b : ℝ) : cdf real x a b = igamReal a (b * x) := rfl

theorem convert_real (s : ℝ) :
    convert real s = (1 / (Real.exp (s * s) - 1), 1 / (Real.exp (s * s) - 1)) := rfl

theorem kernel_intervalIntegrable {a : ℝ} (ha : 0 < a) (u v : ℝ) :
    IntervalIntegrable (fun t : ℝ => t ^ (a - 1) * Real.exp (-t)) volume u v := by
  have h1 : IntervalIntegrable (fun t : ℝ => t ^ (a - 1)) volume u v :=
    intervalIntegral.intervalIntegrable_rpow' (by linarith)
  exact h1.mul_continuousOn (Real.continuous_exp.comp continuous_neg).continuousOn

theorem pdf_eq_kernel {a b : ℝ} (hb : 0 < b) {u : ℝ} (hu : 0 ≤ u) :
    pdf real u a b = (1 / Real.Gamma a) * (b * ((b * u) ^ (a - 1) * Real.exp (-(b * u)))) := by
  rw [pdf_real, Real.mul_rpow hb.le hu]
  have hba : b ^ a = b ^ (a - 1) * b := by
    rw [← Real.rpow_add_one hb.ne']; ring_nf
  rw [hba, neg_mul]
  ring

theorem cdf_eq_integral_pdf {a b : ℝ} (hb : 0 < b) {x : ℝ} (hx : 0 ≤ x) :
    cdf real x a b = ∫ u in (0 : ℝ)..x, pdf real u a b := by
  have h : ∫ u in (0 : ℝ)..x, pdf real u a b
      = ∫ u in (0 : ℝ)..x,
          (1 / Real.Gamma a) * (b * ((b * u) ^ (a - 1) * Real.exp (-(b * u)))) := by
    apply intervalIntegral.integral_congr
    intro u hu
    rw [uIcc_of_le hx] at hu
    exact pdf_eq_kernel hb hu.1
  rw [h, intervalIntegral.integral_const_mul, intervalIntegral.integral_const_mul,
    intervalIntegral.mul_integral_comp_mul_left (f := fun t : ℝ => t ^ (a - 1) * Real.exp (-t)),
    mul_zero, cdf_real, igamReal]

theorem pdf_intervalIntegrable {a b : ℝ} (ha : 0 < a) (hb : 0 < b) {x : ℝ} (hx : 0 ≤ x) :
    IntervalIntegrable (fun u => pdf real u a b) volume 0 x := by
  have h := ((kernel_intervalIntegrable ha (b * 0) (b * x)).comp_mul_left b).const_mul
    (1 / Real.Gamma a * b)
  rw [mul_div_cancel_left₀ _ hb.ne', mul_div_cancel_left₀ _ hb.ne'] at h
  refine h.congr ?_
  filter_upwards [ae_restrict_mem measurableSet_uIoc] with u hu
  rw [uIoc_of_le hx] at hu
  rw [pdf_eq_kernel hb hu.1.le]
  ring

theorem pdf_nonneg {a b : ℝ} (ha : 0 < a) (hb : 0 < b) {x : ℝ} (hx : 0 ≤ x) :
    0 ≤ pdf real x a b := by
  rw [pdf_real]
  have h1 := Real.rpow_nonneg hx (a - 1)
  have h2 := Real.rpow_nonneg hb.le a
  have h3 := (Real.exp_pos (-b * x)).le
  have h4 := (Real.Gamma_pos_of_pos ha).le
  positivity

theorem mul_pdf_eq {a b : ℝ} (ha : 0 < a) (hb : 0 < b) {x : ℝ} (hx : 0 ≤ x) :
    x * pdf real x a b = (a / b) * pdf real x (a + 1) b := by
  rw [pdf_real, pdf_real, Real.Gamma_add_one ha.ne', Real.rpow_add_one hb.ne', add_sub_cancel_right]
  have hxa : x * x ^ (a - 1) = x ^ a := by
    rcases hx.eq_or_lt with h | h
    · rw [← h, Real.zero_rpow ha.ne', zero_mul]
    · rw [Real.rpow_sub_one h.ne']
      field_simp
  have hG := (Real.Gamma_pos_of_pos ha).ne'
  rw [← hxa]
  field_simp
  ring

theorem integral_mul_pdf {a b : ℝ} (ha : 0 < a) (hb : 0 < b) {y : ℝ} (hy : 0 ≤ y) :
    ∫ x in (0 : ℝ)..y, x * pdf real x a b = (a / b) * cdf real y (a + 1) b := by
  rw [cdf_eq_integral_pdf hb hy, ← intervalIntegral.integral_const_mul]
  apply intervalIntegral.integral_congr
  intro x hx
  rw [uIcc_of_le hy] at hx
  exact mul_pdf_eq ha hb hx.1

theorem convert_real_pos {s : ℝ} (hs : s ≠ 0) : 0 < (convert real s).1 := by
  rw [convert_real]
  have h : 0 < s * s := mul_self_pos.mpr hs
  have h1 : 1 < Real.exp (s * s) := Real.one_lt_exp_iff.mpr h
  have h2 : 0 < Real.exp (s * s) - 1 := by linarith
  show 0 < 1 / (Real.exp (s * s) - 1)
  positivity


/-! ## The expectation of the put payoff -/

theorem payoffDensity_eq_zero {f k : ℝ} (hf : 0 < f) (a b : ℝ) {x : ℝ} (hx : k / f < x) :
    payoffDensity f k a b x = 0 := by
  have h : k - f * x ≤ 0 := by
    have := (div_lt_iff₀ hf).mp hx
    linarith
  rw [payoffDensity, max_eq_right h, zero_mul]

theorem payoffDensity_eq_sub {f k : ℝ} (hf : 0 < f) (a b : ℝ) {x : ℝ} (hx : x ≤ k / f) :
    payoffDensity f k a b x = k * pdf real x a b - f * (x * pdf real x a b) := by
  have h : 0 ≤ k - f * x := by
    have := (le_div_iff₀ hf).mp hx
    linarith
  rw [payoffDensity, max_eq_left h]
  ring

theorem mul_pdf_intervalIntegrable {a b : ℝ} (ha : 0 < a) (hb : 0 < b) {y : ℝ} (hy : 0 ≤ y) :
    IntervalIntegrable (fun x => x * pdf real x a b) volume 0 y :=
  (pdf_intervalIntegrable ha hb hy).continuousOn_mul continuous_id.continuousOn

theorem integral_payoffDensity {f k a b : ℝ} (hf : 0 < f) (hk : 0 < k) (ha : 0 < a)
    (hb : 0 < b) :
    ∫ x in Ioi (0 : ℝ), payoffDensity f k a b x
      = k * cdf real (k / f) a b - f * ((a / b) * cdf real (k / f) (a + 1) b) := by
  have hy : 0 ≤ k / f := (div_pos hk hf).le
  have h1 : ∫ x in Ioi (0 : ℝ), payoffDensity f k a b x
      = ∫ x in Ioc (0 : ℝ) (k / f), payoffDensity f k a b x := by
    refine setIntegral_eq_of_subset_of_forall_diff_eq_zero measurableSet_Ioi
      (fun x hx => hx.1) ?_
    intro x hx
    apply payoffDensity_eq_zero hf
    by_contra hc
    exact hx.2 ⟨hx.1, not_lt.mp hc⟩
  have h2 : ∫ x in (0 : ℝ)..(k / f), payoffDensity f k a b x
      = ∫ x in (0 : ℝ)..(k / f), (k * pdf real x a b - f * (x * pdf real x a b)) := by
    apply intervalIntegral.integral_congr
    intro x hx
    rw [uIcc_of_le hy] at hx
    exact payoffDensity_eq_sub hf a b hx.2
  rw [h1, ← intervalIntegral.integral_of_le hy, h2,
    intervalIntegral.integral_sub ((pdf_intervalIntegrable ha hb hy).const_mul k)
      ((mul_pdf_intervalIntegrable ha hb hy).const_mul f),
    intervalIntegral.integral_const_mul, intervalIntegral.integral_const_mul,
    ← cdf_eq_integral_pdf hb hy, integral_mul_pdf ha hb hy]

theorem payoffDensity_integrableOn {f k a b : ℝ} (hf : 0 < f) (hk : 0 < k) (ha : 0 < a)
    (hb : 0 < b) : IntegrableOn (payoffDensity f k a b) (Ioi 0) := by
  have hy : 0 ≤ k / f := (div_pos hk hf).le
  have hU : Ioi (0 : ℝ) = Ioc 0 (k / f) ∪ Ioi (k / f) := (Ioc_union_Ioi_eq_Ioi hy).symm
  rw [hU]
  refine IntegrableOn.union ?_ ?_
  · have h : IntervalIntegrable
        (fun x => k * pdf real x a b - f * (x * pdf real x a b)) volume 0 (k / f) :=
      ((pdf_intervalIntegrable ha hb hy).const_mul k).sub
        ((mul_pdf_intervalIntegrable ha hb hy).const_mul f)
    rw [intervalIntegrable_iff_integrableOn_Ioc_of_le hy] at h
    refine h.congr_fun ?_ measurableSet_Ioc
    intro x hx
    exact (payoffDensity_eq_sub hf a b hx.2).symm
  · have h0 : IntegrableOn (fun _ : ℝ => (0 : ℝ)) (Ioi (k / f)) volume := integrableOn_zero
    refine h0.congr_fun ?_ measurableSet_Ioi
    intro x hx
    exact (payoffDensity_eq_zero hf a b hx).symm

theorem payoffDensity_nonneg {f k a b : ℝ} (ha : 0 < a) (hb : 0 < b) {x : ℝ} (hx : 0 ≤ x) :
    0 ≤ payoffDensity f k a b x :=
  mul_nonneg (le_max_right _ _) (pdf_nonneg ha hb hx)

theorem payoffDensity_mono {f k₁ k₂ a b : ℝ} (ha : 0 < a) (hb : 0 < b) (hk : k₁ ≤ k₂)
    {x : ℝ} (hx : 0 ≤ x) : payoffDensity f k₁ a b x ≤ payoffDensity f k₂ a b x :=
  mul_le_mul_of_nonneg_right (max_le_max (by linarith) le_rfl) (pdf_nonneg ha hb hx)


/-! ## Bounds on the distribution function and the value of `put` -/

theorem cdf_nonneg {a b : ℝ} (ha : 0 < a) (hb : 0 < b) {x : ℝ} (hx : 0 ≤ x) :
    0 ≤ cdf real x a b := by
  rw [cdf_eq_integral_pdf hb hx]
  exact intervalIntegral.integral_nonneg hx (fun u hu => pdf_nonneg ha hb hu.1)

theorem igamReal_le_one {a : ℝ} (ha : 0 < a) {y : ℝ} (hy : 0 ≤ y) : igamReal a y ≤ 1 := by
  have hG : 0 < Real.Gamma a := Real.Gamma_pos_of_pos ha
  have hfun : (fun t : ℝ => t ^ (a - 1) * Real.exp (-t))
      = fun t : ℝ => Real.exp (-t) * t ^ (a - 1) := by
    funext t; ring
  have hint : IntegrableOn (fun t : ℝ => t ^ (a - 1) * Real.exp (-t)) (Ioi 0) volume := by
    rw [hfun]; exact Real.GammaIntegral_convergent ha
  have hle : ∫ t in (0 : ℝ)..y, t ^ (a - 1) * Real.exp (-t) ≤ Real.Gamma a := by
    rw [intervalIntegral.integral_of_le hy, Real.Gamma_eq_integral ha, ← hfun]
    refine setIntegral_mono_set hint ?_ (Filter.Eventually.of_forall (fun x hx => hx.1))
    filter_upwards [ae_restrict_mem measurableSet_Ioi] with t ht
    exact mul_nonneg (Real.rpow_nonneg (le_of_lt ht) _) (Real.exp_pos _).le
  rw [igamReal, one_div, inv_mul_le_iff₀ hG, mul_one]
  exact hle

theorem cdf_le_one {a b : ℝ} (ha : 0 < a) (hb : 0 < b) {x : ℝ} (hx : 0 ≤ x) :
    cdf real x a b ≤ 1 := by
  rw [cdf_real]
  exact igamReal_le_one ha (mul_nonneg hb.le hx)

/-- The value `put` computes once the four checks have passed. -/
theorem put_real_eq {f sigma k t : ℝ} (hf : 0 < f) (hs : 0 < sigma) (hk : 0 < k)
    (ht : 0 < t) :
    put real f sigma k t = Except.ok
      (k * cdf real (k / f) (convert real (sigma * Real.sqrt t)).1
            (convert real (sigma * Real.sqrt t)).2
        - f * cdf real (k / f) ((convert real (sigma * Real.sqrt t)).1 + 1)
            (convert real (sigma * Real.sqrt t)).2) :=
  put_eq_ok real hf hs hk ht

theorem vol_ne_zero {sigma t : ℝ} (hs : 0 < sigma) (ht : 0 < t) : sigma * Real.sqrt t ≠ 0 :=
  (mul_pos hs (Real.sqrt_pos.mpr ht)).ne'

theorem convert_real_snd (s : ℝ) : (convert real s).2 = (convert real s).1 := rfl

theorem put_real_eq_integral {f sigma k t : ℝ} (hf : 0 < f) (hs : 0 < sigma) (hk : 0 < k)
    (ht : 0 < t) :
    put real f sigma k t = Except.ok
      (∫ x in Ioi (0 : ℝ), payoffDensity f k (convert real (sigma * Real.sqrt t)).1
          (convert real (sigma * Real.sqrt t)).2 x) := by
  have ha := convert_real_pos (vol_ne_zero hs ht)
  rw [put_real_eq hf hs hk ht, convert_real_snd, integral_payoffDensity hf hk ha ha,
    div_self ha.ne', one_mul]

theorem put_ok_imp_pos (L : Library α) {f sigma k t v : α}
    (h : put L f sigma k t = Except.ok v) : 0 < f ∧ 0 < sigma ∧ 0 < k ∧ 0 < t := by
  by_contra hc
  have hor : f ≤ 0 ∨ sigma ≤ 0 ∨ k ≤ 0 ∨ t ≤ 0 := by
    by_contra hn
    push_neg at hn
    exact hc hn
  obtain ⟨e, he⟩ := put_error_of_not_pos L hor
  rw [he] at h
  cases h

theorem put_nonneg_le {f sigma k t : ℝ} (hf : 0 < f) (hs : 0 < sigma) (hk : 0 < k)
    (ht : 0 < t) : ∃ v, put real f sigma k t = Except.ok v ∧ 0 ≤ v ∧ v ≤ k := by
  have ha := convert_real_pos (vol_ne_zero hs ht)
  have hy : 0 ≤ k / f := (div_pos hk hf).le
  refine ⟨_, put_real_eq hf hs hk ht, ?_, ?_⟩
  · have h := put_real_eq_integral hf hs hk ht
    rw [put_real_eq hf hs hk ht] at h
    rw [Except.ok.inj h]
    exact setIntegral_nonneg measurableSet_Ioi
      (fun x hx => payoffDensity_nonneg ha ha (le_of_lt hx))
  · rw [convert_real_snd]
    have h1 := cdf_le_one ha ha hy
    have h2 := cdf_nonneg (add_pos ha one_pos) ha hy
    nlinarith [mul_le_mul_of_nonneg_left h1 hk.le, mul_nonneg hf.le h2]

/-! ## The claims -/

/-- C1: `put` fails with the precondition violation exactly when one of `f`, `sigma`,
`k`, `t` is `≤ 0`, and returns a value exactly when all four are strictly positive;
`put(-1, 0.2, 100, 1)` fails and `put(100, 0.2, 100, 1)` succeeds. -/
theorem put_fails_iff (L : Library α) (f sigma k t : α) :
    ((∃ e, put L f sigma k t = Except.error e) ↔ (f ≤ 0 ∨ sigma ≤ 0 ∨ k ≤ 0 ∨ t ≤ 0)) ∧
    ((∃ v, put L f sigma k t = Except.ok v) ↔ (0 < f ∧ 0 < sigma ∧ 0 < k ∧ 0 < t)) ∧
    (∃ e, put real (-1) 0.2 100 1 = Except.error e) ∧
    (∃ v, put real 100 0.2 100 1 = Except.ok v) := by
  refine ⟨⟨?_, put_error_of_not_pos L⟩, ⟨?_, ?_⟩, ?_, ?_⟩
  · rintro ⟨e, he⟩
    by_contra hn
    push_neg at hn
    rw [put_eq_ok L hn.1 hn.2.1 hn.2.2.1 hn.2.2.2] at he
    cases he
  · rintro ⟨v, hv⟩
    exact put_ok_imp_pos L hv
  · rintro ⟨hf, hs, hk, ht⟩
    exact ⟨_, put_eq_ok L hf hs hk ht⟩
  · exact put_error_of_not_pos real (Or.inl (by norm_num))
  · exact ⟨_, put_eq_ok real (by norm_num) (by norm_num) (by norm_num) (by norm_num)⟩

/-- C2: for positive `f`, `sigma`, `k`, `t` the value returned by `put` is the
expectation `E[(k - F)^+]` with `F = f * G` and `G` Gamma distributed with
`(a, b) = convert(sigma * sqrt(t))`: the integral over `x > 0` of
`max(k - f * x, 0) * pdf(x, a, b)`, an integrable function. -/
theorem put_eq_expectation (f sigma k t : ℝ) (hf : 0 < f) (hs : 0 < sigma) (hk : 0 < k)
    (ht : 0 < t) :
    put real f sigma k t = Except.ok
      (∫ x in Ioi (0 : ℝ), max (k - f * x) 0 *
        pdf real x (convert real (sigma * Real.sqrt t)).1
          (convert real (sigma * Real.sqrt t)).2) ∧
    IntegrableOn (fun x => max (k - f * x) 0 *
        pdf real x (convert real (sigma * Real.sqrt t)).1
          (convert real (sigma * Real.sqrt t)).2) (Ioi 0) :=
  ⟨put_real_eq_integral hf hs hk ht,
    payoffDensity_integrableOn hf hk (convert_real_pos (vol_ne_zero hs ht))
      (convert_real_pos (vol_ne_zero hs ht))⟩

theorem put_eq_expectation_witness :
    (0 : ℝ) < 100 ∧ (0 : ℝ) < 1 / 5 ∧ (0 : ℝ) < 90 ∧ (0 : ℝ) < 1 ∧
    put real 100 (1 / 5) 90 1 = Except.ok
      (∫ x in Ioi (0 : ℝ), max (90 - 100 * x) 0 *
        pdf real x (convert real (1 / 5 * Real.sqrt 1)).1
          (convert real (1 / 5 * Real.sqrt 1)).2) :=
  ⟨by norm_num, by norm_num, by norm_num, by norm_num,
    (put_eq_expectation 100 (1 / 5) 90 1 (by norm_num) (by norm_num) (by norm_num)
      (by norm_num)).1⟩

/-- C3: for positive `f`, `sigma`, `k`, `t`, `put` returns
`k * cdf(k/f, a, b) - f * cdf(k/f, a + 1, b)` with `(a, b) = convert(sigma * sqrt(t))`,
which is `k * igam(A, A*k/f) - f * igam(A + 1, A*k/f)` for
`A = 1 / (exp(sigma^2 * t) - 1)`. -/
theorem put_closed_form (f sigma k t : ℝ) (hf : 0 < f) (hs : 0 < sigma) (hk : 0 < k)
    (ht : 0 < t) :
    put real f sigma k t = Except.ok
      (k * cdf real (k / f) (convert real (sigma * Real.sqrt t)).1
            (convert real (sigma * Real.sqrt t)).2
        - f * cdf real (k / f) ((convert real (sigma * Real.sqrt t)).1 + 1)
            (convert real (sigma * Real.sqrt t)).2) ∧
    put real f sigma k t = Except.ok
      (k * real.igam (1 / (Real.exp (sigma ^ 2 * t) - 1))
            (1 / (Real.exp (sigma ^ 2 * t) - 1) * k / f)
        - f * real.igam (1 / (Real.exp (sigma ^ 2 * t) - 1) + 1)
            (1 / (Real.exp (sigma ^ 2 * t) - 1) * k / f)) := by
  refine ⟨put_real_eq hf hs hk ht, ?_⟩
  have hsq : sigma * Real.sqrt t * (sigma * Real.sqrt t) = sigma ^ 2 * t := by
    have := Real.mul_self_sqrt ht.le
    nlinarith
  rw [put_real_eq hf hs hk ht, convert_real, hsq]
  simp only [cdf, mul_div_assoc]

theorem put_closed_form_witness :
    (0 : ℝ) < 100 ∧ (0 : ℝ) < 1 / 5 ∧ (0 : ℝ) < 90 ∧ (0 : ℝ) < 1 ∧
    put real 100 (1 / 5) 90 1 = Except.ok
      (90 * real.igam (1 / (Real.exp ((1 / 5) ^ 2 * 1) - 1))
            (1 / (Real.exp ((1 / 5) ^ 2 * 1) - 1) * 90 / 100)
        - 100 * real.igam (1 / (Real.exp ((1 / 5) ^ 2 * 1) - 1) + 1)
            (1 / (Real.exp ((1 / 5) ^ 2 * 1) - 1) * 90 / 100)) :=
  ⟨by norm_num, by norm_num, by norm_num, by norm_num,
    (put_closed_form 100 (1 / 5) 90 1 (by norm_num) (by norm_num) (by norm_num)
      (by norm_num)).2⟩

/-- C4: for every real `s ≠ 0` the pair `(a, b) = convert(s)` has Gamma mean
`a / b = 1` and Gamma variance `a / b^2 = exp(s^2) - 1`. -/
theorem convert_moments (s : ℝ) (hs : s ≠ 0) :
    (convert real s).1 / (convert real s).2 = 1 ∧
    (convert real s).1 / (convert real s).2 ^ 2 = Real.exp (s ^ 2) - 1 := by
  have ha := convert_real_pos hs
  rw [convert_real_snd]
  refine ⟨div_self ha.ne', ?_⟩
  rw [convert_real, ← pow_two]
  have h1 : 1 < Real.exp (s ^ 2) := Real.one_lt_exp_iff.mpr (by positivity)
  have h2 : Real.exp (s ^ 2) - 1 ≠ 0 := by linarith
  field_simp
  ring

theorem convert_moments_witness :
    (1 : ℝ) ≠ 0 ∧ (convert real 1).1 / (convert real 1).2 = 1 ∧
    (convert real 1).1 / (convert real 1).2 ^ 2 = Real.exp (1 ^ 2) - 1 :=
  ⟨one_ne_zero, convert_moments 1 one_ne_zero⟩


/-- C5: for `a > 0`, `b > 0` and `x ≥ 0`, with `igam` the regularized lower incomplete
Gamma function, `cdf(x, a, b)` is the Gamma probability `P(X ≤ x)`: the integral of
`pdf(u, a, b)` over `u` from `0` to `x`, where the density is integrable. -/
theorem cdf_is_gamma_probability (a b x : ℝ) (ha : 0 < a) (hb : 0 < b) (hx : 0 ≤ x) :
    real.igam a x = (1 / Real.Gamma a) * ∫ t in (0 : ℝ)..x, t ^ (a - 1) * Real.exp (-t) ∧
    IntervalIntegrable (fun u => pdf real u a b) volume 0 x ∧
    cdf real x a b = ∫ u in (0 : ℝ)..x, pdf real u a b :=
  ⟨rfl, pdf_intervalIntegrable ha hb hx, cdf_eq_integral_pdf hb hx⟩

theorem cdf_is_gamma_probability_witness :
    (0 : ℝ) < 2 ∧ (0 : ℝ) < 3 ∧ (0 : ℝ) ≤ 1 ∧
    cdf real 1 2 3 = ∫ u in (0 : ℝ)..1, pdf real u 2 3 :=
  ⟨by norm_num, by norm_num, by norm_num,
    (cdf_is_gamma_probability 2 3 1 (by norm_num) (by norm_num) (by norm_num)).2.2⟩

/-- C6: for `a > 0`, `b > 0` and `y ≥ 0` the partial first moment of the Gamma
density is `∫₀ʸ x * pdf(x, a, b) dx = (a / b) * cdf(y, a + 1, b)`; for
`(a, b) = convert(s)` with `s ≠ 0` it is `cdf(y, a + 1, b)`, the factor of `f` in
`put`. -/
theorem truncated_first_moment (a b y : ℝ) (ha : 0 < a) (hb : 0 < b) (hy : 0 ≤ y) :
    ∫ x in (0 : ℝ)..y, x * pdf real x a b = (a / b) * cdf real y (a + 1) b ∧
    ∀ s : ℝ, s ≠ 0 →
      ∫ x in (0 : ℝ)..y, x * pdf real x (convert real s).1 (convert real s).2
        = cdf real y ((convert real s).1 + 1) (convert real s).2 := by
  refine ⟨integral_mul_pdf ha hb hy, ?_⟩
  intro s hs
  have hA := convert_real_pos hs
  rw [convert_real_snd, integral_mul_pdf hA hA hy, div_self hA.ne', one_mul]

theorem truncated_first_moment_witness :
    (0 : ℝ) < 2 ∧ (0 : ℝ) < 3 ∧ (0 : ℝ) ≤ 1 ∧
    ∫ x in (0 : ℝ)..1, x * pdf real x 2 3 = (2 / 3) * cdf real 1 (2 + 1) 3 :=
  ⟨by norm_num, by norm_num, by norm_num,
    (truncated_first_moment 2 3 1 (by norm_num) (by norm_num) (by norm_num)).1⟩

/-- C7: with `f`, `sigma`, `t` positive and fixed, `put` is non-decreasing in the
strike: for `0 < k1 ≤ k2` both calls return a value and the first is at most the
second. -/
theorem put_mono_strike (f sigma t k1 k2 : ℝ) (hf : 0 < f) (hs : 0 < sigma) (ht : 0 < t)
    (hk1 : 0 < k1) (h12 : k1 ≤ k2) :
    ∃ v1 v2, put real f sigma k1 t = Except.ok v1 ∧ put real f sigma k2 t = Except.ok v2 ∧
      v1 ≤ v2 := by
  have hk2 : 0 < k2 := lt_of_lt_of_le hk1 h12
  have ha := convert_real_pos (vol_ne_zero hs ht)
  refine ⟨_, _, put_real_eq_integral hf hs hk1 ht, put_real_eq_integral hf hs hk2 ht, ?_⟩
  exact setIntegral_mono_on (payoffDensity_integrableOn hf hk1 ha ha)
    (payoffDensity_integrableOn hf hk2 ha ha) measurableSet_Ioi
    (fun x hx => payoffDensity_mono ha ha h12 (le_of_lt hx))

theorem put_mono_strike_witness :
    (0 : ℝ) < 100 ∧ (0 : ℝ) < 1 / 5 ∧ (0 : ℝ) < 1 ∧ (0 : ℝ) < 90 ∧ (90 : ℝ) ≤ 110 ∧
    ∃ v1 v2, put real 100 (1 / 5) 90 1 = Except.ok v1 ∧
      put real 100 (1 / 5) 110 1 = Except.ok v2 ∧ v1 ≤ v2 :=
  ⟨by norm_num, by norm_num, by norm_num, by norm_num, by norm_num,
    put_mono_strike 100 (1 / 5) 1 90 110 (by norm_num) (by norm_num) (by norm_num)
      (by norm_num) (by norm_num)⟩

/-- C8: for fixed positive `f`, `sigma`, `t` the value of `put` tends to `0` as the
strike tends to `0` from above: for every `ε > 0` there is `δ > 0` such that for
every `0 < k < δ` the call returns a value of absolute value below `ε`. -/
theorem put_tendsto_zero (f sigma t : ℝ) (hf : 0 < f) (hs : 0 < sigma) (ht : 0 < t) :
    ∀ ε : ℝ, 0 < ε → ∃ δ : ℝ, 0 < δ ∧ ∀ k : ℝ, 0 < k → k < δ →
      ∃ v, put real f sigma k t = Except.ok v ∧ |v| < ε := by
  intro ε hε
  refine ⟨ε, hε, ?_⟩
  intro k hk hkε
  obtain ⟨v, hv, h0, hle⟩ := put_nonneg_le hf hs hk ht
  exact ⟨v, hv, by rw [abs_of_nonneg h0]; linarith⟩

theorem put_tendsto_zero_witness :
    (0 : ℝ) < 100 ∧ (0 : ℝ) < 1 / 5 ∧ (0 : ℝ) < 1 ∧
    ∀ ε : ℝ, 0 < ε → ∃ δ : ℝ, 0 < δ ∧ ∀ k : ℝ, 0 < k → k < δ →
      ∃ v, put real 100 (1 / 5) k 1 = Except.ok v ∧ |v| < ε :=
  ⟨by norm_num, by norm_num, by norm_num,
    put_tendsto_zero 100 (1 / 5) 1 (by norm_num) (by norm_num) (by norm_num)⟩

/-- C9: `convert(s)` returns a pair whose two components are equal, for every `s`
and so for every finite nonzero `s`, whatever the library `exp` computes. -/
theorem convert_fst_eq_snd (L : Library α) (s : α) : (convert L s).1 = (convert L s).2 :=
  rfl

/-- C10: `convert` is even: `convert(s) = convert(-s)` for every `s`, in both
components. -/
theorem convert_even (L : Library α) (s : α) :
    convert L s = convert L (-s) ∧ (convert L s).1 = (convert L (-s)).1 ∧
      (convert L s).2 = (convert L (-s)).2 := by
  have h : convert L s = convert L (-s) := by
    simp only [convert, neg_mul_neg]
  exact ⟨h, by rw [h], by rw [h]⟩


/-! ## The concrete scenario `f = 100`, `sigma = 0.2`, `k = 100`, `t = 1` -/

theorem exp_004_bounds :
    (0.0408107 : ℝ) < Real.exp 0.04 - 1 ∧ Real.exp 0.04 - 1 < (0.0408108 : ℝ) := by
  have h := Real.exp_bound (x := 0.04) (by rw [abs_le]; constructor <;> norm_num) (n := 5)
    (by norm_num)
  simp only [Finset.sum_range_succ, Finset.sum_range_zero, Nat.factorial] at h
  rw [abs_le] at h
  have habs : |(0.04 : ℝ)| = 0.04 := abs_of_pos (by norm_num)
  rw [habs] at h
  norm_num at h
  constructor <;> linarith [h.1, h.2]

theorem convert_02_bounds :
    (24.5033 : ℝ) ≤ (convert real 0.2).1 ∧ (convert real 0.2).1 < (24.5034 : ℝ) := by
  have he : (0.2 : ℝ) * 0.2 = 0.04 := by norm_num
  obtain ⟨h1, h2⟩ := exp_004_bounds
  have hpos : (0 : ℝ) < Real.exp 0.04 - 1 := by linarith
  rw [convert_real, he]
  show (24.5033 : ℝ) ≤ 1 / (Real.exp 0.04 - 1) ∧ 1 / (Real.exp 0.04 - 1) < (24.5034 : ℝ)
  constructor
  · rw [le_div_iff₀ hpos]
    nlinarith
  · rw [div_lt_iff₀ hpos]
    nlinarith


/-! ## The density on the whole half line -/

theorem kernel_integrableOn_Ioi {a : ℝ} (ha : 0 < a) :
    IntegrableOn (fun t : ℝ => t ^ (a - 1) * Real.exp (-t)) (Ioi 0) volume := by
  have hfun : (fun t : ℝ => t ^ (a - 1) * Real.exp (-t))
      = fun t : ℝ => Real.exp (-t) * t ^ (a - 1) := by
    funext t; ring
  rw [hfun]
  exact Real.GammaIntegral_convergent ha

theorem kernel_integral_Ioi {a : ℝ} (ha : 0 < a) :
    ∫ t in Ioi (0 : ℝ), t ^ (a - 1) * Real.exp (-t) = Real.Gamma a := by
  rw [Real.Gamma_eq_integral ha]
  congr 1
  funext t
  ring

theorem igamReal_tendsto_one {a : ℝ} (ha : 0 < a) :
    Filter.Tendsto (fun y => igamReal a y) Filter.atTop (nhds 1) := by
  have h := (intervalIntegral_tendsto_integral_Ioi 0 (kernel_integrableOn_Ioi ha)
    Filter.tendsto_id).const_mul (1 / Real.Gamma a)
  rw [kernel_integral_Ioi ha, one_div, inv_mul_cancel₀ (Real.Gamma_pos_of_pos ha).ne'] at h
  simpa [igamReal] using h

theorem cdf_tendsto_one {a b : ℝ} (ha : 0 < a) (hb : 0 < b) :
    Filter.Tendsto (fun x => cdf real x a b) Filter.atTop (nhds 1) :=
  (igamReal_tendsto_one ha).comp (Filter.tendsto_id.const_mul_atTop hb)

theorem cdf_zero (a b : ℝ) : cdf real 0 a b = 0 := by
  rw [cdf_real, mul_zero, igamReal, intervalIntegral.integral_same, mul_zero]

theorem cdf_mono {a b : ℝ} (ha : 0 < a) (hb : 0 < b) {x₁ x₂ : ℝ} (h1 : 0 ≤ x₁)
    (h12 : x₁ ≤ x₂) : cdf real x₁ a b ≤ cdf real x₂ a b := by
  have h2 : 0 ≤ x₂ := h1.trans h12
  rw [cdf_eq_integral_pdf hb h1, cdf_eq_integral_pdf hb h2, intervalIntegral.integral_of_le h1,
    intervalIntegral.integral_of_le h2]
  have hint : IntegrableOn (fun u => pdf real u a b) (Ioc 0 x₂) volume :=
    (intervalIntegrable_iff_integrableOn_Ioc_of_le h2).mp (pdf_intervalIntegrable ha hb h2)
  refine setIntegral_mono_set hint ?_ (Ioc_subset_Ioc_right h12).eventuallyLE
  filter_upwards [ae_restrict_mem measurableSet_Ioc] with u hu
  exact pdf_nonneg ha hb hu.1.le

theorem pdf_integrableOn_Ioi {a b : ℝ} (ha : 0 < a) (hb : 0 < b) :
    IntegrableOn (fun x => pdf real x a b) (Ioi 0) volume := by
  have hk : IntegrableOn (fun t : ℝ => t ^ (a - 1) * Real.exp (-t)) (Ioi (b * 0)) volume := by
    rw [mul_zero]; exact kernel_integrableOn_Ioi ha
  have h := ((integrableOn_Ioi_comp_mul_left_iff
    (fun t : ℝ => t ^ (a - 1) * Real.exp (-t)) 0 hb).mpr hk).const_mul (1 / Real.Gamma a * b)
  refine IntegrableOn.congr_fun h ?_ measurableSet_Ioi
  intro x hx
  show _ = pdf real x a b
  rw [pdf_eq_kernel hb (le_of_lt hx)]
  ring

theorem integral_pdf_tendsto_one {a b : ℝ} (ha : 0 < a) (hb : 0 < b) :
    Filter.Tendsto (fun X => ∫ x in (0 : ℝ)..X, pdf real x a b) Filter.atTop (nhds 1) := by
  refine (cdf_tendsto_one ha hb).congr' ?_
  filter_upwards [Filter.eventually_ge_atTop (0 : ℝ)] with X hX
  exact cdf_eq_integral_pdf hb hX

theorem integral_pdf_Ioi {a b : ℝ} (ha : 0 < a) (hb : 0 < b) :
    ∫ x in Ioi (0 : ℝ), pdf real x a b = 1 :=
  tendsto_nhds_unique
    (intervalIntegral_tendsto_integral_Ioi 0 (pdf_integrableOn_Ioi ha hb) Filter.tendsto_id)
    (integral_pdf_tendsto_one ha hb)

theorem mul_pdf_integrableOn_Ioi {a b : ℝ} (ha : 0 < a) (hb : 0 < b) :
    IntegrableOn (fun x => x * pdf real x a b) (Ioi 0) volume := by
  refine IntegrableOn.congr_fun
    ((pdf_integrableOn_Ioi (add_pos ha one_pos) hb).const_mul (a / b)) ?_ measurableSet_Ioi
  intro x hx
  exact (mul_pdf_eq ha hb (le_of_lt hx)).symm

theorem integral_mul_pdf_Ioi {a b : ℝ} (ha : 0 < a) (hb : 0 < b) :
    ∫ x in Ioi (0 : ℝ), x * pdf real x a b = a / b := by
  have h : ∫ x in Ioi (0 : ℝ), x * pdf real x a b
      = ∫ x in Ioi (0 : ℝ), (a / b) * pdf real x (a + 1) b :=
    setIntegral_congr_fun measurableSet_Ioi (fun x hx => mul_pdf_eq ha hb (le_of_lt hx))
  rw [h, integral_mul_left, integral_pdf_Ioi (add_pos ha one_pos) hb, mul_one]


/-! ## The lower bound on `put` and the growth of the parameters -/

theorem put_ge_intrinsic {f sigma k t : ℝ} (hf : 0 < f) (hs : 0 < sigma) (hk : 0 < k)
    (ht : 0 < t) : ∃ v, put real f sigma k t = Except.ok v ∧ k - f ≤ v := by
  have ha := convert_real_pos (vol_ne_zero hs ht)
  refine ⟨_, put_real_eq_integral hf hs hk ht, ?_⟩
  rw [convert_real_snd]
  have hlin : IntegrableOn (fun x => k * pdf real x (convert real (sigma * Real.sqrt t)).1
        (convert real (sigma * Real.sqrt t)).1
      - f * (x * pdf real x (convert real (sigma * Real.sqrt t)).1
        (convert real (sigma * Real.sqrt t)).1)) (Ioi 0) volume :=
    ((pdf_integrableOn_Ioi ha ha).const_mul k).sub ((mul_pdf_integrableOn_Ioi ha ha).const_mul f)
  have hval : ∫ x in Ioi (0 : ℝ), (k * pdf real x (convert real (sigma * Real.sqrt t)).1
        (convert real (sigma * Real.sqrt t)).1
      - f * (x * pdf real x (convert real (sigma * Real.sqrt t)).1
        (convert real (sigma * Real.sqrt t)).1)) = k - f := by
    rw [integral_sub ((pdf_integrableOn_Ioi ha ha).const_mul k)
      ((mul_pdf_integrableOn_Ioi ha ha).const_mul f), integral_mul_left, integral_mul_left,
      integral_pdf_Ioi ha ha, integral_mul_pdf_Ioi ha ha, div_self ha.ne', mul_one, mul_one]
  rw [← hval]
  refine setIntegral_mono_on hlin (payoffDensity_integrableOn hf hk ha ha) measurableSet_Ioi ?_
  intro x hx
  have hp := pdf_nonneg ha ha (le_of_lt hx)
  have hm : k - f * x ≤ max (k - f * x) 0 := le_max_left _ _
  have := mul_le_mul_of_nonneg_right hm hp
  show _ ≤ max (k - f * x) 0 * pdf real x _ _
  linarith

theorem convert_real_gt {M : ℝ} (hM : 0 < M) {s : ℝ} (hs0 : s ≠ 0)
    (hs : (M + 1) * (s * s) < 1) : M < (convert real s).1 := by
  have hx : 0 < s * s := mul_self_pos.mpr hs0
  have hx1 : s * s < 1 := by nlinarith
  have he := Real.exp_bound_div_one_sub_of_interval' hx hx1
  have h1x : 0 < 1 - s * s := by linarith
  rw [lt_div_iff₀ h1x] at he
  have hpos : 0 < Real.exp (s * s) - 1 := by
    have := Real.one_lt_exp_iff.mpr hx
    linarith
  rw [convert_real]
  show M < 1 / (Real.exp (s * s) - 1)
  rw [lt_div_iff₀ hpos]
  have h2 : (Real.exp (s * s) - 1) * (1 - s * s) < s * s := by nlinarith
  have h3 : M * (Real.exp (s * s) - 1) * (1 - s * s) < 1 * (1 - s * s) := by
    have : M * ((Real.exp (s * s) - 1) * (1 - s * s)) < M * (s * s) :=
      mul_lt_mul_of_pos_left h2 hM
    nlinarith
  exact lt_of_mul_lt_mul_right h3 h1x.le

/-! ## The claims on the distribution function, the parameters and the bounds -/

/-- C11: for `a > 0`, `b > 0`, with `igam` the regularized lower incomplete Gamma
function, `cdf(., a, b)` is non-decreasing on `x ≥ 0`: `cdf(x1, a, b) ≤ cdf(x2, a, b)`
for `0 ≤ x1 ≤ x2`. -/
theorem cdf_nondecreasing (a b x1 x2 : ℝ) (ha : 0 < a) (hb : 0 < b) (h1 : 0 ≤ x1)
    (h12 : x1 ≤ x2) : cdf real x1 a b ≤ cdf real x2 a b :=
  cdf_mono ha hb h1 h12

theorem cdf_nondecreasing_witness :
    (0 : ℝ) < 2 ∧ (0 : ℝ) < 3 ∧ (0 : ℝ) ≤ 1 ∧ (1 : ℝ) ≤ 4 ∧
    cdf real 1 2 3 ≤ cdf real 4 2 3 :=
  ⟨by norm_num, by norm_num, by norm_num, by norm_num,
    cdf_nondecreasing 2 3 1 4 (by norm_num) (by norm_num) (by norm_num) (by norm_num)⟩

/-- C12: for `a > 0`, `b > 0` the function `cdf(., a, b)` has the boundary values of a
distribution function: `cdf(0, a, b) = 0` and `cdf(x, a, b)` tends to `1` as `x` tends
to `+∞`. -/
theorem cdf_boundary (a b : ℝ) (ha : 0 < a) (hb : 0 < b) :
    cdf real 0 a b = 0 ∧
    Filter.Tendsto (fun x => cdf real x a b) Filter.atTop (nhds 1) :=
  ⟨cdf_zero a b, cdf_tendsto_one ha hb⟩

theorem cdf_boundary_witness :
    (0 : ℝ) < 2 ∧ (0 : ℝ) < 3 ∧ cdf real 0 2 3 = 0 ∧
    Filter.Tendsto (fun x => cdf real x 2 3) Filter.atTop (nhds 1) :=
  ⟨by norm_num, by norm_num, cdf_boundary 2 3 (by norm_num) (by norm_num)⟩

/-- C13: for `a > 0`, `b > 0` the function
`pdf(x, a, b) = x^(a-1) * exp(-b*x) * b^a / Γ(a)` is a probability density on `x > 0`:
its integral from `0` to `X` tends to `1` as `X` tends to `+∞`, it is integrable over
`(0, ∞)` and its integral there is `1`. -/
theorem pdf_is_density (a b : ℝ) (ha : 0 < a) (hb : 0 < b) :
    (∀ x : ℝ, pdf real x a b = x ^ (a - 1) * Real.exp (-b * x) * b ^ a / Real.Gamma a) ∧
    Filter.Tendsto (fun X => ∫ x in (0 : ℝ)..X, pdf real x a b) Filter.atTop (nhds 1) ∧
    IntegrableOn (fun x => pdf real x a b) (Ioi 0) ∧
    ∫ x in Ioi (0 : ℝ), pdf real x a b = 1 :=
  ⟨fun _ => rfl, integral_pdf_tendsto_one ha hb, pdf_integrableOn_Ioi ha hb,
    integral_pdf_Ioi ha hb⟩

theorem pdf_is_density_witness :
    (0 : ℝ) < 2 ∧ (0 : ℝ) < 3 ∧ ∫ x in Ioi (0 : ℝ), pdf real x 2 3 = 1 :=
  ⟨by norm_num, by norm_num, (pdf_is_density 2 3 (by norm_num) (by norm_num)).2.2.2⟩

/-- C14, as the code computes it: in the scenario `f = 100`, `sigma = 0.2`, `k = 100`,
`t = 1`, `put` computes `s = sigma * sqrt(t) = 0.2` and `convert(0.2)` returns
`a = b = 1 / (exp(0.04) - 1)`, whose value is about `24.5033`:
`24.5033 ≤ a < 24.5034`. -/
theorem scenario_parameters :
    (0.2 : ℝ) * real.sqrt 1 = 0.2 ∧
    convert real (0.2 * real.sqrt 1)
      = (1 / (Real.exp 0.04 - 1), 1 / (Real.exp 0.04 - 1)) ∧
    put real 100 0.2 100 1 = Except.ok
      (100 * cdf real (100 / 100) (1 / (Real.exp 0.04 - 1)) (1 / (Real.exp 0.04 - 1))
        - 100 * cdf real (100 / 100) (1 / (Real.exp 0.04 - 1) + 1)
            (1 / (Real.exp 0.04 - 1))) ∧
    (24.5033 : ℝ) ≤ 1 / (Real.exp 0.04 - 1) ∧ 1 / (Real.exp 0.04 - 1) < (24.5034 : ℝ) := by
  have hs : (0.2 : ℝ) * real.sqrt 1 = 0.2 := by
    show (0.2 : ℝ) * Real.sqrt 1 = 0.2
    rw [Real.sqrt_one, mul_one]
  have he : (0.2 : ℝ) * 0.2 = 0.04 := by norm_num
  have hc : convert real 0.2 = (1 / (Real.exp 0.04 - 1), 1 / (Real.exp 0.04 - 1)) := by
    rw [convert_real, he]
  have hb := convert_02_bounds
  rw [hc] at hb
  refine ⟨hs, by rw [hs, hc], ?_, hb⟩
  have hp := put_real_eq (f := 100) (k := 100) (t := 1) (show (0 : ℝ) < 100 by norm_num)
    (show (0 : ℝ) < 0.2 by norm_num) (by norm_num) (by norm_num)
  have hs2 : (0.2 : ℝ) * Real.sqrt 1 = 0.2 := hs
  rw [hs2, hc] at hp
  exact hp

/-- C14, as stated, fails: `a = 1 / (exp(0.04) - 1)` returned by `convert(0.2)` does not
lie in `[24.5012, 24.5013)`. -/
theorem scenario_value_not_245012 :
    ¬ ((0.2 : ℝ) * real.sqrt 1 = 0.2 ∧
      convert real (0.2 * real.sqrt 1)
        = (1 / (Real.exp 0.04 - 1), 1 / (Real.exp 0.04 - 1)) ∧
      (24.5012 : ℝ) ≤ 1 / (Real.exp 0.04 - 1) ∧ 1 / (Real.exp 0.04 - 1) < (24.5013 : ℝ)) := by
  rintro ⟨-, -, -, h⟩
  have he : (0.2 : ℝ) * 0.2 = 0.04 := by norm_num
  have hb := convert_02_bounds.1
  rw [convert_real, he] at hb
  have hb2 : (24.5033 : ℝ) ≤ 1 / (Real.exp 0.04 - 1) := hb
  linarith


/-- C15: for every real `s ≠ 0` both components of `convert(s)` are strictly positive,
so the parameters `put` passes to `cdf` are valid Gamma shape and rate parameters
whenever `sigma > 0` and `t > 0`. -/
theorem convert_pos (s : ℝ) (hs : s ≠ 0) :
    (0 < (convert real s).1 ∧ 0 < (convert real s).2) ∧
    ∀ sigma t : ℝ, 0 < sigma → 0 < t →
      0 < (convert real (sigma * real.sqrt t)).1 ∧
      0 < (convert real (sigma * real.sqrt t)).1 + 1 ∧
      0 < (convert real (sigma * real.sqrt t)).2 := by
  refine ⟨⟨convert_real_pos hs, convert_real_pos hs⟩, ?_⟩
  intro sigma t hsig ht
  have h := convert_real_pos (vol_ne_zero hsig ht)
  exact ⟨h, add_pos h one_pos, h⟩

theorem convert_pos_witness :
    (1 : ℝ) ≠ 0 ∧ 0 < (convert real 1).1 ∧ 0 < (convert real 1).2 :=
  ⟨one_ne_zero, (convert_pos 1 one_ne_zero).1⟩

/-- C16: as `s` tends to `0` with `s ≠ 0`, both components of `convert(s)` tend to
`+∞`: for every bound `M` there is `d > 0` such that `0 < |s| < d` implies
`convert(s).first > M` and `convert(s).second > M`. -/
theorem convert_tendsto_infinity (M : ℝ) :
    ∃ d : ℝ, 0 < d ∧ ∀ s : ℝ, 0 < |s| → |s| < d →
      (convert real s).1 > M ∧ (convert real s).2 > M := by
  have hN : 0 < max M 1 := lt_of_lt_of_le one_pos (le_max_right _ _)
  have hN1 : 1 < max M 1 + 1 := by linarith
  refine ⟨1 / (max M 1 + 1), by positivity, ?_⟩
  intro s hs0 hsd
  have hne : s ≠ 0 := abs_pos.mp hs0
  have hd1 : 1 / (max M 1 + 1) < 1 := by
    rw [div_lt_one (by linarith)]; exact hN1
  have hss : s * s = |s| * |s| := (abs_mul_abs_self s).symm
  have hlt : s * s < 1 / (max M 1 + 1) := by
    rw [hss]
    have h1 : |s| * |s| ≤ |s| * 1 :=
      mul_le_mul_of_nonneg_left (by linarith) (abs_nonneg s)
    linarith
  have hkey : (max M 1 + 1) * (s * s) < 1 := by
    rw [lt_div_iff₀ (by linarith : (0 : ℝ) < max M 1 + 1)] at hlt
    linarith
  have h := convert_real_gt hN hne hkey
  have hM : M < (convert real s).1 := lt_of_le_of_lt (le_max_left _ _) h
  exact ⟨hM, hM⟩

/-- C17: for positive `f`, `sigma`, `k`, `t`, with `igam` the regularized lower
incomplete Gamma function, `put` returns a value within the no-arbitrage bounds
`max(0, k - f) ≤ put(f, sigma, k, t) ≤ k`. -/
theorem put_no_arbitrage_bounds (f sigma k t : ℝ) (hf : 0 < f) (hs : 0 < sigma)
    (hk : 0 < k) (ht : 0 < t) :
    ∃ v, put real f sigma k t = Except.ok v ∧ max 0 (k - f) ≤ v ∧ v ≤ k := by
  obtain ⟨v, hv, h0, hle⟩ := put_nonneg_le hf hs hk ht
  obtain ⟨w, hw, hge⟩ := put_ge_intrinsic hf hs hk ht
  rw [hv] at hw
  rw [← Except.ok.inj hw] at hge
  exact ⟨v, hv, max_le h0 hge, hle⟩

theorem put_no_arbitrage_bounds_witness :
    (0 : ℝ) < 100 ∧ (0 : ℝ) < 1 / 5 ∧ (0 : ℝ) < 110 ∧ (0 : ℝ) < 1 ∧
    ∃ v, put real 100 (1 / 5) 110 1 = Except.ok v ∧ max 0 (110 - 100) ≤ v ∧ v ≤ 110 :=
  ⟨by norm_num, by norm_num, by norm_num, by norm_num,
    put_no_arbitrage_bounds 100 (1 / 5) 110 1 (by norm_num) (by norm_num) (by norm_num)
      (by norm_num)⟩

/-- C18: `put` is positively homogeneous of degree 1 in `(f, k)`: for `c > 0` and
positive `f`, `sigma`, `k`, `t`, both calls return a value and
`put(c*f, sigma, c*k, t) = c * put(f, sigma, k, t)`, whatever the library functions. -/
theorem put_homogeneous (L : Library α) (c f sigma k t : α) (hc : 0 < c) (hf : 0 < f)
    (hs : 0 < sigma) (hk : 0 < k) (ht : 0 < t) :
    ∃ v, put L f sigma k t = Except.ok v ∧
      put L (c * f) sigma (c * k) t = Except.ok (c * v) := by
  refine ⟨_, put_eq_ok L hf hs hk ht, ?_⟩
  rw [put_eq_ok L (mul_pos hc hf) hs (mul_pos hc hk) ht, mul_div_mul_left _ _ hc.ne']
  congr 1
  ring

theorem put_homogeneous_witness :
    (0 : ℝ) < 2 ∧ (0 : ℝ) < 100 ∧ (0 : ℝ) < 1 / 5 ∧ (0 : ℝ) < 90 ∧ (0 : ℝ) < 1 ∧
    ∃ v, put real 100 (1 / 5) 90 1 = Except.ok v ∧
      put real (2 * 100) (1 / 5) (2 * 90) 1 = Except.ok (2 * v) :=
  ⟨by norm_num, by norm_num, by norm_num, by norm_num, by norm_num,
    put_homogeneous real 2 100 (1 / 5) 90 1 (by norm_num) (by norm_num) (by norm_num)
      (by norm_num) (by norm_num)⟩

/-- C19: `put` depends on volatility and time only through the total variance
`sigma^2 * t`: for positive `f`, `k`, `sigma1`, `t1`, `sigma2`, `t2` with
`sigma1^2 * t1 = sigma2^2 * t2` the two calls return the same value. -/
theorem put_total_variance (f k sigma1 t1 sigma2 t2 : ℝ) (hf : 0 < f) (hk : 0 < k)
    (hs1 : 0 < sigma1) (ht1 : 0 < t1) (hs2 : 0 < sigma2) (ht2 : 0 < t2)
    (h : sigma1 ^ 2 * t1 = sigma2 ^ 2 * t2) :
    (∃ v, put real f sigma1 k t1 = Except.ok v) ∧
    put real f sigma1 k t1 = put real f sigma2 k t2 := by
  have hsq : ∀ sigma t : ℝ, 0 < t →
      sigma * Real.sqrt t * (sigma * Real.sqrt t) = sigma ^ 2 * t := by
    intro sigma t ht
    have := Real.mul_self_sqrt ht.le
    nlinarith
  refine ⟨⟨_, put_real_eq hf hs1 hk ht1⟩, ?_⟩
  rw [put_real_eq hf hs1 hk ht1, put_real_eq hf hs2 hk ht2, convert_real, convert_real,
    hsq sigma1 t1 ht1, hsq sigma2 t2 ht2, h]

theorem put_total_variance_witness :
    (0 : ℝ) < 100 ∧ (0 : ℝ) < 90 ∧ (0 : ℝ) < 2 ∧ (0 : ℝ) < 1 ∧ (0 : ℝ) < 1 ∧ (0 : ℝ) < 4 ∧
    (2 : ℝ) ^ 2 * 1 = 1 ^ 2 * 4 ∧ put real 100 2 90 1 = put real 100 1 90 4 :=
  ⟨by norm_num, by norm_num, by norm_num, by norm_num, by norm_num, by norm_num, by norm_num,
    (put_total_variance 100 90 2 1 1 4 (by norm_num) (by norm_num) (by norm_num)
      (by norm_num) (by norm_num) (by norm_num) (by norm_num)).2⟩

end fms.gamma
